import Mathlib

/- Shallow embedding of devkit/techtree.py, a dependency-layout validator for
   the Easel C library.  Python dicts keyed by strings (with list or set
   values) are modelled as association lists `List (String × List String)`;
   Python sets of strings are modelled as lists of strings whose observable is
   membership.  A returned `none` models abnormal termination of the Python
   code at that point: an uncaught exception (KeyError, NameError) or a
   `sys.exit` with a nonzero status.  The worklist loop in `expand_layout`
   additionally takes explicit fuel, since the Python `while` loop has no
   termination guarantee: `gaLoop` returns `none` exactly when `fuel`
   iterations of the Python loop do not suffice for it to stop (normally or by
   raising KeyError). -/

namespace Techtree

/-- Association table modelling a Python dict from str to a list or set of
str, in insertion order. -/
abbrev Table := List (String × List String)

/-- Dict lookup `d[k]`: value of the first entry with key `k`; `none` models a
KeyError. -/
def lookupT : Table → String → Option (List String)
  | [], _ => none
  | (k2, v) :: rest, k => if k2 = k then some v else lookupT rest k

/-- Dict assignment `d[k] = v`: replaces the value in place, or appends a new
entry at the end, as a Python dict does. -/
def dictSet : Table → String → List String → Table
  | [], k, v => [(k, v)]
  | (k2, v2) :: rest, k, v =>
    if k2 = k then (k, v) :: rest else (k2, v2) :: dictSet rest k v

/-- Python `set.add`: add an element unless already present. -/
def insertS (x : String) (s : List String) : List String :=
  if x ∈ s then s else x :: s

/-- The four global tables of techtree.py bundled: group order `easelgrps`,
membership `easelmods`, group parents `easelparents`, extras `easeladd`. -/
structure Layout where
  grps : List String
  mods : Table
  parents : Table
  adds : Table
deriving DecidableEq

/-- All module names of all membership lists, with multiplicity (the list `Mm`
accumulated by validate_layout). -/
def allModules (mods : Table) : List String :=
  (mods.map Prod.snd).flatten

/-- Equality of two string lists viewed as Python sets. -/
abbrev eqAsSets (a b : List String) : Prop :=
  (∀ x ∈ a, x ∈ b) ∧ (∀ x ∈ b, x ∈ a)

/-- validate_layout of techtree.py: checks the four layout tables for
consistency.  `none` models `sys.exit` with a diagnostic; on success Python
prints the group and module counts, returned here. -/
def validate_layout (L : Layout) : Option (Nat × Nat) :=
  if ¬ eqAsSets L.grps (L.mods.map Prod.fst) then none
  else if ¬ eqAsSets L.grps (L.parents.map Prod.fst) then none
  else if (allModules L.mods).dedup.length ≠ (allModules L.mods).length then none
  else if ¬ eqAsSets (allModules L.mods) (L.adds.map Prod.fst) then none
  else some ((L.mods.map Prod.fst).dedup.length, (allModules L.mods).dedup.length)

/-- Outcome of the worklist loop of expand_layout when it stops: either the
accumulated set `Ga[g]`, or the key that raised KeyError in
`easelparents[g2]`. -/
inductive GaOut where
  | ok : List String → GaOut
  | keyErr : String → GaOut
deriving DecidableEq

/-- The worklist (pushdown) loop of expand_layout:
`while len(pda): g2 = pda.pop(); Ga[g].add(g2); pda.extend(easelparents[g2])`.
The pda is kept reversed, so Python's pop-from-the-end is the head here and
extend-at-the-end prepends the reversed parent list.  `fuel` bounds the number
of loop iterations; `none` means the loop has not stopped within `fuel`
iterations. -/
def gaLoop (parents : Table) : Nat → List String → List String → Option GaOut
  | _, [], ga => some (GaOut.ok ga)
  | 0, _ :: _, _ => none
  | fuel + 1, g2 :: rest, ga =>
    match lookupT parents g2 with
    | none => some (GaOut.keyErr g2)
    | some ps => gaLoop parents fuel (ps.reverse ++ rest) (insertS g2 ga)

/-- First phase of expand_layout: for every entry of `easelparents` in order,
run the worklist loop from the group's direct parents and record the resulting
`Ga[g]`.  `none` models KeyError or an unfinished loop. -/
def buildGa (parents : Table) (fuel : Nat) : Table → Option Table
  | [] => some []
  | (g, ps) :: rest =>
    match gaLoop parents fuel ps.reverse [] with
    | some (GaOut.ok s) =>
      match buildGa parents fuel rest with
      | some t => some ((g, s) :: t)
      | none => none
    | _ => none

/-- `mdep = mdep | set(easelmods[g2])` accumulated over `g2 in Ga[g]`; `none`
models the KeyError when a group in `Ga[g]` has no membership entry. -/
def groupUnion (mods : Table) : List String → Option (List String)
  | [] => some []
  | g :: gs =>
    match lookupT mods g with
    | none => none
    | some ms =>
      match groupUnion mods gs with
      | none => none
      | some rest => some (ms ++ rest)

/-- `Ma[m] = mdep | easeladd[m]` for every module `m` of one group's
membership list; `none` models the KeyError when `easeladd` lacks `m`. -/
def buildEntries (adds : Table) (mdep : List String) : List String → Option Table
  | [] => some []
  | m :: ms =>
    match lookupT adds m with
    | none => none
    | some ex =>
      match buildEntries adds mdep ms with
      | none => none
      | some t => some ((m, mdep ++ ex) :: t)

/-- Second phase of expand_layout: for every group of `easelmods` in order,
union the membership lists of the groups in `Ga[g]` and produce the `Ma`
entries of that group's modules. -/
def buildMa (mods adds gaTbl : Table) : Table → Option Table
  | [] => some []
  | (g, ms) :: rest =>
    match lookupT gaTbl g with
    | none => none
    | some ga =>
      match groupUnion mods ga with
      | none => none
      | some mdep =>
        match buildEntries adds mdep ms with
        | none => none
        | some es =>
          match buildMa mods adds gaTbl rest with
          | none => none
          | some t => some (es ++ t)

/-- expand_layout of techtree.py: compute `Ga` by the worklist traversal for
every group, then expand it to the per-module allowed-dependency table `Ma`. -/
def expand_layout (L : Layout) (fuel : Nat) : Option Table :=
  match buildGa L.parents fuel L.parents with
  | none => none
  | some gaTbl => buildMa L.mods L.adds gaTbl L.mods

/-- `D[m] - Ma[m]`, the excess of the actual set over the allowed set. -/
def excessOf (allowed act : List String) : List String :=
  act.filter fun x => decide (x ∉ allowed)

/-- compare_layout of techtree.py: for every module of `Ma` in order, look up
`D[m]` (`none` models the KeyError when absent) and record the violation
`(m, D[m] - Ma[m])` whenever `Ma[m]` is not a superset of `D[m]`. -/
def compare_layout : Table → Table → Option Table
  | [], _ => some []
  | (m, allowed) :: rest, D =>
    match lookupT D m with
    | none => none
    | some act =>
      match compare_layout rest D with
      | none => none
      | some vs =>
        some (if excessOf allowed act = [] then vs else (m, excessOf allowed act) :: vs)

/-- All modules in global layout order: for every group of `easelgrps` in
order, its membership list; `none` models the KeyError when a listed group has
no membership entry. -/
def orderedMembers : List String → Table → Option (List String)
  | [], _ => some []
  | g :: gs, mods =>
    match lookupT mods g with
    | none => none
    | some ms =>
      match orderedMembers gs mods with
      | none => none
      | some rest => some (ms ++ rest)

/-- One report line per module: the module with the members of `D[m]` listed
in global layout order; `none` models the KeyError of `D[m]` when absent. -/
def outputMods (ordered : List String) (D : Table) : List String → Option Table
  | [] => some []
  | m :: ms =>
    match lookupT D m with
    | none => none
    | some dset =>
      match outputMods ordered D ms with
      | none => none
      | some rest => some ((m, ordered.filter fun m2 => decide (m2 ∈ dset)) :: rest)

/-- output_direct_deplines of techtree.py: for every group in declared order
and every module in that group's declared order, print the module's actual
dependencies filtered and reordered to global layout order. -/
def output_direct_deplines (L : Layout) (D : Table) : Option Table :=
  match orderedMembers L.grps L.mods with
  | none => none
  | some ordered => outputMods ordered D ordered

/-- process_token of techtree.py, first substitution: strip a leading
`esl_`. -/
def stripPrefixEsl : List Char → List Char
  | 'e' :: 's' :: 'l' :: '_' :: rest => rest
  | t => t

/-- process_token of techtree.py, second substitution: the regex `.[coh]$`
with an unescaped dot deletes the last TWO characters whenever the token has
at least two characters and ends in c, o or h. -/
def stripExt (t : List Char) : List Char :=
  match t.getLast? with
  | some c => if (c = 'c' ∨ c = 'o' ∨ c = 'h') ∧ 2 ≤ t.length then t.dropLast.dropLast else t
  | none => t

/-- process_token of techtree.py: normalize a filename token to a module
name. -/
def process_token (tok : String) : String :=
  ⟨stripExt (stripPrefixEsl tok.toList)⟩

/-- Accumulating splitter behind splitWs: `acc` holds the characters of the
current word in reverse. -/
def splitWsAux : List Char → List Char → List String
  | [], acc => if acc = [] then [] else [⟨acc.reverse⟩]
  | c :: rest, acc =>
    if c.isWhitespace then
      if acc = [] then splitWsAux rest [] else ⟨acc.reverse⟩ :: splitWsAux rest []
    else splitWsAux rest (c :: acc)

/-- Python `line.split()`: split on whitespace runs, dropping empty pieces. -/
def splitWs (s : String) : List String :=
  splitWsAux s.toList []

/-- The anchored regex match `re.match(r'(\S+): (.+)', line)`: succeeds iff
the maximal leading run of non-whitespace characters is some `obj` followed by
a colon, the next character is a space, and at least one character follows;
yields (group 1, group 2). -/
def matchTarget (line : String) : Option (String × String) :=
  let cs := line.toList
  let r := cs.takeWhile fun c => !c.isWhitespace
  match cs.drop r.length with
  | ' ' :: b =>
    if r.getLast? = some ':' ∧ 2 ≤ r.length ∧ b ≠ [] then
      some (⟨r.dropLast⟩, ⟨b⟩)
    else none
  | _ => none

/-- Loader state: the current module variable `m` (`none` while still unbound,
before any target line) and the dict `D` under construction. -/
structure PState where
  cur : Option String
  D : Table
deriving DecidableEq

/-- The token loop body of main: skip `\` and `esl_config.h`, normalize,
skip a self-dependency, otherwise `D[m].add(s)`.  `none` models the NameError
raised when `m` is still unbound, or a KeyError on `D[m]`. -/
def procToken (st : PState) (s : String) : Option PState :=
  if s = "\\" ∨ s = "esl_config.h" then some st
  else
    match st.cur with
    | none => none
    | some m =>
      let s2 := process_token s
      if s2 = m then some st
      else
        match lookupT st.D m with
        | none => none
        | some dset => some ⟨some m, dictSet st.D m (insertS s2 dset)⟩

/-- Fold of procToken over the fields of one line. -/
def procTokens : PState → List String → Option PState
  | st, [] => some st
  | st, s :: rest =>
    match procToken st s with
    | none => none
    | some st2 => procTokens st2 rest

/-- One iteration of the line loop of main: a matching line rebinds `m`,
resets `D[m] = set()` and processes the remaining fields; any other line
processes all its fields in the current context. -/
def procLine (st : PState) (line : String) : Option PState :=
  match matchTarget line with
  | some (obj, deps) =>
    let m := process_token obj
    procTokens ⟨some m, dictSet st.D m []⟩ (splitWs deps)
  | none => procTokens st (splitWs line)

/-- Fold of procLine over all input lines. -/
def procLines : PState → List String → Option PState
  | st, [] => some st
  | st, l :: rest =>
    match procLine st l with
    | none => none
    | some st2 => procLines st2 rest

/-- The dependency loader of main: parse the whole input into the actual
dependency table `D`, starting with `m` unbound and `D` empty. -/
def loadDeps (lines : List String) : Option Table :=
  (procLines ⟨none, []⟩ lines).map PState.D

/-- main of techtree.py on an already-read argument file: validate the layout,
expand it, load the dependency listing, print the per-module listing, then the
violations.  `some` is a run that reaches the end of main (process exit status
0) with the validator counts, report lines and violations produced; `none` is
a run that exits nonzero or does not terminate within `fuel`. -/
def mainRun (L : Layout) (fuel : Nat) (lines : List String) :
    Option ((Nat × Nat) × Table × Table) :=
  match validate_layout L with
  | none => none
  | some counts =>
    match expand_layout L fuel with
    | none => none
    | some Ma =>
      match loadDeps lines with
      | none => none
      | some D =>
        match output_direct_deplines L D with
        | none => none
        | some outLines =>
          match compare_layout Ma D with
          | none => none
          | some vs => some (counts, outLines, vs)

/-- A three-layer test layout: layer R has parent Q, layer Q has parent P, and
module q1 declares an extra on its same-layer sibling q2. -/
def layoutPQR : Layout :=
  ⟨["P", "Q", "R"],
   [("P", ["p1"]), ("Q", ["q1", "q2"]), ("R", ["r1"])],
   [("P", []), ("Q", ["P"]), ("R", ["Q"])],
   [("p1", []), ("q1", ["q2"]), ("q2", []), ("r1", [])]⟩

/-- A one-layer, one-module test layout. -/
def layoutG : Layout :=
  ⟨["G"], [("G", ["a"])], [("G", [])], [("a", [])]⟩

/-- A layout whose module m is assigned to two different layers. -/
def layoutDup : Layout :=
  ⟨["G", "H"], [("G", ["m"]), ("H", ["m"])], [("G", []), ("H", [])], [("m", [])]⟩

/-- The group ordering table easelgrps of techtree.py. -/
def easelgrps : List String :=
  ["BASE",
   "BIOLOGICAL_SEQUENCES", "NUMERICAL_METHODS", "ALGORITHMS", "FILE_INPUT",
   "ADVANCED_SEQUENCES", "MULTIPLE_ALIGNMENTS", "MULTIPLE_ALIGNMENT_FILES", "SEQUENCE_FILES",
   "STATISTICAL_DISTRIBUTIONS", "MIXTURE_DISTRIBUTIONS",
   "COMMANDLINE", "BENCHMARKS", "SIMD_VECTORS", "MULTITHREADING",
   "MPI"]

/-- The group membership table easelmods of techtree.py. -/
def easelmods : Table :=
  [("BASE", ["easel", "mem", "random", "regexp", "stack", "vectorops"]),
   ("ALGORITHMS", ["arr2", "arr3", "bitfield", "cluster", "dmatrix", "heap", "keyhash",
      "matrixops", "quicksort", "red_black", "varint", "huffman", "graph", "tree"]),
   ("NUMERICAL_METHODS", ["rootfinder", "minimizer", "rand64"]),
   ("BIOLOGICAL_SEQUENCES", ["alphabet", "composition", "hmm"]),
   ("FILE_INPUT", ["buffer", "fileparser", "recorder", "ssi", "json"]),
   ("COMMANDLINE", ["getopts", "subcmd"]),
   ("BENCHMARKS", ["stopwatch"]),
   ("STATISTICAL_DISTRIBUTIONS", ["stats", "normal", "histogram", "exponential", "gamma",
      "gev", "gumbel", "stretchexp", "weibull"]),
   ("MIXTURE_DISTRIBUTIONS", ["dirichlet", "mixgev", "hyperexp", "mixdchlet"]),
   ("ADVANCED_SEQUENCES", ["distance", "wuss", "paml", "randomseq", "ratematrix",
      "scorematrix", "swat"]),
   ("MULTIPLE_ALIGNMENTS", ["msa", "msacluster", "msashuffle", "msaweight"]),
   ("MULTIPLE_ALIGNMENT_FILES", ["msafile", "msafile2", "msafile_a2m", "msafile_afa",
      "msafile_clustal", "msafile_phylip", "msafile_psiblast", "msafile_selex",
      "msafile_stockholm"]),
   ("SEQUENCE_FILES", ["sq", "sqio_ascii", "sqio_ncbi", "sqio", "dsqdata", "gencode"]),
   ("SIMD_VECTORS", ["alloc", "cpu", "sse", "avx", "avx512", "neon", "vmx"]),
   ("MULTITHREADING", ["threads", "workqueue"]),
   ("MPI", ["mpi"])]

/-- The group parent table easelparents of techtree.py. -/
def easelparents : Table :=
  [("BASE", []),
   ("BIOLOGICAL_SEQUENCES", ["BASE"]),
   ("NUMERICAL_METHODS", ["BASE"]),
   ("ALGORITHMS", ["BASE"]),
   ("FILE_INPUT", ["BASE"]),
   ("COMMANDLINE", ["BASE"]),
   ("BENCHMARKS", ["BASE"]),
   ("SIMD_VECTORS", ["BASE"]),
   ("MULTITHREADING", ["BASE"]),
   ("ADVANCED_SEQUENCES", ["BIOLOGICAL_SEQUENCES", "NUMERICAL_METHODS", "ALGORITHMS",
      "FILE_INPUT"]),
   ("STATISTICAL_DISTRIBUTIONS", ["NUMERICAL_METHODS"]),
   ("MIXTURE_DISTRIBUTIONS", ["STATISTICAL_DISTRIBUTIONS", "ALGORITHMS", "FILE_INPUT"]),
   ("MULTIPLE_ALIGNMENTS", ["ADVANCED_SEQUENCES"]),
   ("MULTIPLE_ALIGNMENT_FILES", ["MULTIPLE_ALIGNMENTS"]),
   ("SEQUENCE_FILES", ["MULTIPLE_ALIGNMENT_FILES"]),
   ("MPI", ["BENCHMARKS", "SEQUENCE_FILES"])]

/-- The per-module extras table easeladd of techtree.py. -/
def easeladd : Table :=
  [("easel", []), ("mem", ["easel"]), ("random", ["easel"]), ("regexp", ["easel"]),
   ("stack", ["easel", "random"]), ("vectorops", ["easel", "random"]),
   ("arr2", []), ("arr3", []), ("bitfield", []), ("cluster", []), ("dmatrix", []),
   ("heap", []), ("keyhash", []), ("matrixops", []), ("quicksort", []), ("red_black", []),
   ("varint", []), ("huffman", ["quicksort"]), ("graph", ["matrixops"]),
   ("tree", ["arr2", "dmatrix", "stack"]),
   ("rootfinder", []), ("minimizer", []), ("rand64", []),
   ("alphabet", []), ("composition", []), ("hmm", ["alphabet"]),
   ("buffer", []), ("fileparser", []), ("recorder", []), ("ssi", []),
   ("json", ["buffer"]),
   ("getopts", []), ("subcmd", ["getopts"]),
   ("stopwatch", []),
   ("stats", []), ("normal", ["stats"]), ("histogram", ["stats"]),
   ("exponential", ["stats", "histogram"]), ("gamma", ["stats", "histogram"]),
   ("gev", ["stats"]), ("gumbel", ["stats"]), ("stretchexp", ["stats", "histogram"]),
   ("weibull", ["stats", "histogram"]),
   ("dirichlet", []), ("hyperexp", []), ("mixdchlet", ["dirichlet"]),
   ("mixgev", ["dirichlet"]),
   ("distance", []), ("wuss", []), ("paml", []), ("randomseq", []), ("ratematrix", []),
   ("scorematrix", ["ratematrix"]), ("swat", ["scorematrix"]),
   ("msa", []), ("msacluster", ["msa"]), ("msashuffle", ["msa"]),
   ("msaweight", ["msa", "msacluster"]),
   ("msafile", []), ("msafile2", []), ("msafile_a2m", ["msafile"]),
   ("msafile_afa", ["msafile"]), ("msafile_clustal", ["msafile"]),
   ("msafile_phylip", ["msafile"]), ("msafile_psiblast", ["msafile"]),
   ("msafile_selex", ["msafile"]), ("msafile_stockholm", ["msafile"]),
   ("sq", []), ("sqio", ["sq"]), ("sqio_ascii", ["sq", "sqio"]),
   ("sqio_ncbi", ["sq", "sqio"]), ("dsqdata", ["sq", "sqio", "sqio_ascii"]),
   ("gencode", ["sq", "sqio", "sqio_ascii", "sqio_ncbi"]),
   ("alloc", []), ("cpu", []), ("sse", []), ("avx", []), ("avx512", []), ("neon", []),
   ("vmx", []),
   ("threads", []), ("workqueue", []),
   ("mpi", [])]

/-- The hardcoded layout of techtree.py as one Layout value. -/
def easelLayout : Layout :=
  ⟨easelgrps, easelmods, easelparents, easeladd⟩

/-- One step of the group-level dependency graph: `p` is a declared direct
parent of `g`. -/
def parentEdge (parents : Table) (g p : String) : Prop :=
  ∃ ps, lookupT parents g = some ps ∧ p ∈ ps

/-- Every chain of parent edges out of `g` has at most `n` edges (counting
a missing `easelparents` entry as having no outgoing edges, since the Python
loop stops there by raising KeyError). -/
def Bnd (parents : Table) : Nat → String → Prop
  | 0, g => ∀ p, ¬ parentEdge parents g p
  | n + 1, g => ∀ p, parentEdge parents g p → Bnd parents n p

theorem mem_insertS {x y : String} {s : List String} :
    x ∈ insertS y s ↔ x = y ∨ x ∈ s := by
  unfold insertS
  split
  · rename_i hy
    constructor
    · exact fun h => Or.inr h
    · rintro (rfl | h)
      · exact hy
      · exact h
  · exact List.mem_cons

theorem lookupT_mem {t : Table} {k : String} {v : List String}
    (h : lookupT t k = some v) : (k, v) ∈ t := by
  induction t with
  | nil => simp [lookupT] at h
  | cons e rest ih =>
    obtain ⟨k2, v2⟩ := e
    unfold lookupT at h
    split at h
    · rename_i heq
      subst heq
      injection h with h
      subst h
      exact List.mem_cons_self _ _
    · exact List.mem_cons_of_mem _ (ih h)

theorem lookupT_key_mem {t : Table} {k : String} {v : List String}
    (h : lookupT t k = some v) : k ∈ t.map Prod.fst :=
  List.mem_map.mpr ⟨(k, v), lookupT_mem h, rfl⟩

theorem lookupT_of_mem_nodup {t : Table} {k : String} {v : List String}
    (hmem : (k, v) ∈ t) (hnd : (t.map Prod.fst).Nodup) : lookupT t k = some v := by
  induction t with
  | nil => simp at hmem
  | cons e rest ih =>
    obtain ⟨k2, v2⟩ := e
    simp only [List.map_cons, List.nodup_cons] at hnd
    rcases List.mem_cons.mp hmem with heq | hmem2
    · injection heq with h1 h2
      subst h1
      subst h2
      simp [lookupT]
    · have hne : k2 ≠ k := by
        intro hk
        subst hk
        exact hnd.1 (List.mem_map.mpr ⟨(k2, v), hmem2, rfl⟩)
      simp only [lookupT, if_neg hne]
      exact ih hmem2 hnd.2

theorem lookupT_val_unique {t : Table} {k : String} {v1 v2 : List String}
    (hnd : (t.map Prod.fst).Nodup) (h1 : (k, v1) ∈ t) (h2 : (k, v2) ∈ t) : v1 = v2 := by
  have e1 := lookupT_of_mem_nodup h1 hnd
  have e2 := lookupT_of_mem_nodup h2 hnd
  rw [e1] at e2
  injection e2 with e2

theorem dictSet_lookup_self {t : Table} {k : String} {v : List String} :
    lookupT (dictSet t k v) k = some v := by
  induction t with
  | nil => simp [dictSet, lookupT]
  | cons e rest ih =>
    obtain ⟨k2, v2⟩ := e
    unfold dictSet
    split
    · simp [lookupT]
    · rename_i hne
      simp only [lookupT, if_neg hne]
      exact ih

theorem dictSet_lookup_ne {t : Table} {k k2 : String} {v : List String}
    (hne : k2 ≠ k) : lookupT (dictSet t k v) k2 = lookupT t k2 := by
  induction t with
  | nil => simp [dictSet, lookupT, Ne.symm hne]
  | cons e rest ih =>
    obtain ⟨k3, v3⟩ := e
    unfold dictSet
    split
    · rename_i hk3
      subst hk3
      simp [lookupT, Ne.symm hne]
    · unfold lookupT
      split
      · rfl
      · exact ih

theorem entry_unique_of_nodup {tbl : Table} {x : String}
    (hnd : (allModules tbl).Nodup) {e1 e2 : String × List String}
    (h1 : e1 ∈ tbl) (h2 : e2 ∈ tbl) (hx1 : x ∈ e1.2) (hx2 : x ∈ e2.2) : e1 = e2 := by
  induction tbl with
  | nil => simp at h1
  | cons e rest ih =>
    have hnd2 : (e.2 ++ allModules rest).Nodup := by
      simpa [allModules] using hnd
    rw [List.nodup_append] at hnd2
    have hmemflat : ∀ e3 : String × List String, e3 ∈ rest → x ∈ e3.2 →
        x ∈ allModules rest := by
      intro e3 he3 hx3
      exact List.mem_flatten.mpr ⟨e3.2, List.mem_map.mpr ⟨e3, he3, rfl⟩, hx3⟩
    rcases List.mem_cons.mp h1 with rfl | h1r
    · rcases List.mem_cons.mp h2 with rfl | h2r
      · rfl
      · exact absurd (hmemflat e2 h2r hx2) (fun hm => hnd2.2.2 hx1 hm)
    · rcases List.mem_cons.mp h2 with rfl | h2r
      · exact absurd (hmemflat e1 h1r hx1) (fun hm => hnd2.2.2 hx2 hm)
      · exact ih hnd2.2.1 h1r h2r

theorem gaLoop_nil {parents : Table} {f : Nat} {ga : List String} :
    gaLoop parents f [] ga = some (GaOut.ok ga) := by
  cases f <;> rfl

theorem gaLoop_ga_sub {parents : Table} :
    ∀ {f : Nat} {pda ga res : List String},
      gaLoop parents f pda ga = some (GaOut.ok res) → ∀ x ∈ ga, x ∈ res := by
  intro f
  induction f with
  | zero =>
    intro pda ga res h x hx
    cases pda with
    | nil =>
      rw [gaLoop_nil] at h
      injection h with h
      injection h with h
      exact h ▸ hx
    | cons g2 rest => simp [gaLoop] at h
  | succ f ih =>
    intro pda ga res h x hx
    cases pda with
    | nil =>
      rw [gaLoop_nil] at h
      injection h with h
      injection h with h
      exact h ▸ hx
    | cons g2 rest =>
      rw [gaLoop] at h
      cases hl : lookupT parents g2 with
      | none => rw [hl] at h; simp at h
      | some ps =>
        rw [hl] at h
        exact ih h x (mem_insertS.mpr (Or.inr hx))

theorem gaLoop_pda_sub {parents : Table} :
    ∀ {f : Nat} {pda ga res : List String},
      gaLoop parents f pda ga = some (GaOut.ok res) → ∀ x ∈ pda, x ∈ res := by
  intro f
  induction f with
  | zero =>
    intro pda ga res h x hx
    cases pda with
    | nil => simp at hx
    | cons g2 rest => simp [gaLoop] at h
  | succ f ih =>
    intro pda ga res h x hx
    cases pda with
    | nil => simp at hx
    | cons g2 rest =>
      rw [gaLoop] at h
      cases hl : lookupT parents g2 with
      | none => rw [hl] at h; simp at h
      | some ps =>
        rw [hl] at h
        rcases List.mem_cons.mp hx with rfl | hx2
        · exact gaLoop_ga_sub h x (mem_insertS.mpr (Or.inl rfl))
        · exact ih h x (List.mem_append_right _ hx2)

theorem gaLoop_complete {parents : Table} :
    ∀ {f : Nat} {pda ga res : List String},
      gaLoop parents f pda ga = some (GaOut.ok res) →
      ∀ q ∈ pda, ∀ x, Relation.ReflTransGen (parentEdge parents) q x → x ∈ res := by
  intro f
  induction f with
  | zero =>
    intro pda ga res h q hq x hpath
    cases pda with
    | nil => simp at hq
    | cons g2 rest => simp [gaLoop] at h
  | succ f ih =>
    intro pda ga res h q hq x hpath
    cases pda with
    | nil => simp at hq
    | cons g2 rest =>
      rw [gaLoop] at h
      cases hl : lookupT parents g2 with
      | none => rw [hl] at h; simp at h
      | some ps =>
        rw [hl] at h
        rcases List.mem_cons.mp hq with rfl | hq2
        · rcases Relation.ReflTransGen.cases_head hpath with rfl | ⟨c, hedge, hcx⟩
          · exact gaLoop_ga_sub h _ (mem_insertS.mpr (Or.inl rfl))
          · obtain ⟨ps2, hl2, hc⟩ := hedge
            rw [hl] at hl2
            injection hl2 with hl2
            subst hl2
            exact ih h c (List.mem_append_left _ (List.mem_reverse.mpr hc)) x hcx
        · exact ih h q (List.mem_append_right _ hq2) x hpath

theorem gaLoop_sound {parents : Table} :
    ∀ {f : Nat} {pda ga res : List String},
      gaLoop parents f pda ga = some (GaOut.ok res) →
      ∀ x ∈ res, x ∈ ga ∨ ∃ q ∈ pda, Relation.ReflTransGen (parentEdge parents) q x := by
  intro f
  induction f with
  | zero =>
    intro pda ga res h x hx
    cases pda with
    | nil =>
      rw [gaLoop_nil] at h
      injection h with h
      injection h with h
      exact Or.inl (h ▸ hx)
    | cons g2 rest => simp [gaLoop] at h
  | succ f ih =>
    intro pda ga res h x hx
    cases pda with
    | nil =>
      rw [gaLoop_nil] at h
      injection h with h
      injection h with h
      exact Or.inl (h ▸ hx)
    | cons g2 rest =>
      rw [gaLoop] at h
      cases hl : lookupT parents g2 with
      | none => rw [hl] at h; simp at h
      | some ps =>
        rw [hl] at h
        rcases ih h x hx with hxg | ⟨q, hq, hpath⟩
        · rcases mem_insertS.mp hxg with rfl | hxga
          · exact Or.inr ⟨_, List.mem_cons_self _ _, Relation.ReflTransGen.refl⟩
          · exact Or.inl hxga
        · rcases List.mem_append.mp hq with hqps | hqrest
          · exact Or.inr ⟨g2, List.mem_cons_self _ _,
              Relation.ReflTransGen.head ⟨ps, hl, List.mem_reverse.mp hqps⟩ hpath⟩
          · exact Or.inr ⟨q, List.mem_cons_of_mem _ hqrest, hpath⟩

theorem gaLoop_fuel_mono {parents : Table} :
    ∀ {f : Nat} {pda ga : List String} {r : GaOut} (k : Nat),
      gaLoop parents f pda ga = some r → gaLoop parents (f + k) pda ga = some r := by
  intro f
  induction f with
  | zero =>
    intro pda ga r k h
    cases pda with
    | nil =>
      rw [gaLoop_nil] at h
      rw [gaLoop_nil]
      exact h
    | cons g2 rest => simp [gaLoop] at h
  | succ f ih =>
    intro pda ga r k h
    cases pda with
    | nil =>
      rw [gaLoop_nil] at h
      rw [gaLoop_nil]
      exact h
    | cons g2 rest =>
      have harith : f + 1 + k = (f + k) + 1 := by omega
      rw [harith]
      cases hl : lookupT parents g2 with
      | none =>
        rw [gaLoop, hl] at h
        rw [gaLoop, hl]
        exact h
      | some ps =>
        rw [gaLoop, hl] at h
        rw [gaLoop, hl]
        exact ih k h

theorem gaLoop_append_ok {parents : Table} :
    ∀ {f1 : Nat} {A ga ga2 : List String} {f2 : Nat} {B : List String} {r : GaOut},
      gaLoop parents f1 A ga = some (GaOut.ok ga2) →
      gaLoop parents f2 B ga2 = some r →
      gaLoop parents (f1 + f2) (A ++ B) ga = some r := by
  intro f1
  induction f1 with
  | zero =>
    intro A ga ga2 f2 B r h1 h2
    cases A with
    | nil =>
      rw [gaLoop_nil] at h1
      injection h1 with h1
      injection h1 with h1
      subst h1
      simpa using h2
    | cons g2 rest => simp [gaLoop] at h1
  | succ f ih =>
    intro A ga ga2 f2 B r h1 h2
    cases A with
    | nil =>
      rw [gaLoop_nil] at h1
      injection h1 with h1
      injection h1 with h1
      subst h1
      have harith : f + 1 + f2 = f2 + (f + 1) := by omega
      rw [harith]
      exact gaLoop_fuel_mono _ h2
    | cons a A2 =>
      have harith : f + 1 + f2 = (f + f2) + 1 := by omega
      rw [harith, List.cons_append]
      cases hl : lookupT parents a with
      | none =>
        rw [gaLoop, hl] at h1
        simp at h1
      | some ps =>
        rw [gaLoop, hl] at h1
        rw [gaLoop, hl]
        have := ih h1 h2
        rwa [List.append_assoc] at this

theorem gaLoop_append_err {parents : Table} :
    ∀ {f : Nat} {A ga : List String} {e : String} (B : List String),
      gaLoop parents f A ga = some (GaOut.keyErr e) →
      gaLoop parents f (A ++ B) ga = some (GaOut.keyErr e) := by
  intro f
  induction f with
  | zero =>
    intro A ga e B h
    cases A with
    | nil =>
      rw [gaLoop_nil] at h
      injection h with h
      simp at h
    | cons g2 rest => simp [gaLoop] at h
  | succ f ih =>
    intro A ga e B h
    cases A with
    | nil =>
      rw [gaLoop_nil] at h
      injection h with h
      simp at h
    | cons a A2 =>
      rw [List.cons_append]
      cases hl : lookupT parents a with
      | none =>
        rw [gaLoop, hl] at h
        rw [gaLoop, hl]
        exact h
      | some ps =>
        rw [gaLoop, hl] at h
        rw [gaLoop, hl]
        have := ih B h
        rwa [List.append_assoc] at this

theorem gaLoop_term_list (parents : Table) :
    ∀ (l : List String),
      (∀ q ∈ l, ∀ ga, ∃ f r, gaLoop parents f [q] ga = some r) →
      ∀ ga, ∃ f r, gaLoop parents f l ga = some r := by
  intro l
  induction l with
  | nil => exact fun _ ga => ⟨0, GaOut.ok ga, gaLoop_nil⟩
  | cons q rest ih =>
    intro hall ga
    obtain ⟨f1, r1, h1⟩ := hall q (List.mem_cons_self _ _) ga
    cases r1 with
    | ok ga2 =>
      obtain ⟨f2, r2, h2⟩ := ih (fun q2 hq2 => hall q2 (List.mem_cons_of_mem _ hq2)) ga2
      exact ⟨f1 + f2, r2, gaLoop_append_ok h1 h2⟩
    | keyErr e =>
      exact ⟨f1, GaOut.keyErr e, gaLoop_append_err rest h1⟩

theorem gaLoop_term_of_bnd (parents : Table) :
    ∀ (n : Nat) (g : String), Bnd parents n g →
      ∀ ga, ∃ f r, gaLoop parents f [g] ga = some r := by
  intro n
  induction n with
  | zero =>
    intro g hbnd ga
    cases hl : lookupT parents g with
    | none => exact ⟨1, GaOut.keyErr g, by rw [gaLoop, hl]⟩
    | some ps =>
      cases ps with
      | nil => exact ⟨1, GaOut.ok (insertS g ga), by rw [gaLoop, hl]; exact gaLoop_nil⟩
      | cons q ps2 => exact absurd ⟨_, hl, List.mem_cons_self _ _⟩ (hbnd q)
  | succ n ih =>
    intro g hbnd ga
    cases hl : lookupT parents g with
    | none => exact ⟨1, GaOut.keyErr g, by rw [gaLoop, hl]⟩
    | some ps =>
      have hterm : ∀ q ∈ ps.reverse, ∀ ga2, ∃ f r, gaLoop parents f [q] ga2 = some r := by
        intro q hq
        exact ih q (hbnd q ⟨ps, hl, List.mem_reverse.mp hq⟩)
      obtain ⟨f2, r, h2⟩ := gaLoop_term_list parents ps.reverse hterm (insertS g ga)
      refine ⟨f2 + 1, r, ?_⟩
      rw [gaLoop, hl]
      simpa using h2

theorem bnd_of_acyclic (parents : Table)
    (hacy : ∀ g, ¬ Relation.TransGen (parentEdge parents) g g) :
    ∀ (n : Nat) (g : String),
      Set.ncard {k | k ∈ parents.map Prod.fst ∧
        Relation.ReflTransGen (parentEdge parents) g k} ≤ n →
      Bnd parents n g := by
  have hfin : ∀ g : String,
      Set.Finite {k | k ∈ parents.map Prod.fst ∧
        Relation.ReflTransGen (parentEdge parents) g k} :=
    fun g => Set.Finite.subset (parents.map Prod.fst).finite_toSet (fun x hx => hx.1)
  intro n
  induction n with
  | zero =>
    intro g hle
    intro q hedge
    obtain ⟨ps, hl, hq⟩ := hedge
    have hg : g ∈ {k | k ∈ parents.map Prod.fst ∧
        Relation.ReflTransGen (parentEdge parents) g k} :=
      ⟨lookupT_key_mem hl, Relation.ReflTransGen.refl⟩
    have hpos : 0 < Set.ncard {k | k ∈ parents.map Prod.fst ∧
        Relation.ReflTransGen (parentEdge parents) g k} :=
      (Set.ncard_pos (hfin g)).mpr ⟨g, hg⟩
    omega
  | succ n ih =>
    intro g hle
    intro q hedge
    apply ih
    have hsub : {k | k ∈ parents.map Prod.fst ∧
        Relation.ReflTransGen (parentEdge parents) q k} ⊆
        {k | k ∈ parents.map Prod.fst ∧
        Relation.ReflTransGen (parentEdge parents) g k} :=
      fun x hx => ⟨hx.1, Relation.ReflTransGen.head hedge hx.2⟩
    have hgmem : g ∈ {k | k ∈ parents.map Prod.fst ∧
        Relation.ReflTransGen (parentEdge parents) g k} := by
      obtain ⟨ps, hl, _⟩ := hedge
      exact ⟨lookupT_key_mem hl, Relation.ReflTransGen.refl⟩
    have hgnot : g ∉ {k | k ∈ parents.map Prod.fst ∧
        Relation.ReflTransGen (parentEdge parents) q k} := by
      intro hg
      exact hacy g (Relation.TransGen.head' hedge hg.2)
    have hss : {k | k ∈ parents.map Prod.fst ∧
        Relation.ReflTransGen (parentEdge parents) q k} ⊂
        {k | k ∈ parents.map Prod.fst ∧
        Relation.ReflTransGen (parentEdge parents) g k} :=
      ⟨hsub, fun hsup => hgnot (hsup hgmem)⟩
    have hlt := Set.ncard_lt_ncard hss (hfin g)
    omega

theorem gaLoop_term_of_acyclic (parents : Table)
    (hacy : ∀ g, ¬ Relation.TransGen (parentEdge parents) g g) :
    ∀ pda ga, ∃ f r, gaLoop parents f pda ga = some r := by
  intro pda
  apply gaLoop_term_list
  intro q _
  exact gaLoop_term_of_bnd parents _ q (bnd_of_acyclic parents hacy _ q (Nat.le_refl _))

theorem cyc_loop_none :
    ∀ f : Nat,
      gaLoop [("A", ["B"]), ("B", ["A"])] f ["A"] ["A", "B"] = none ∧
      gaLoop [("A", ["B"]), ("B", ["A"])] f ["B"] ["A", "B"] = none := by
  intro f
  induction f with
  | zero => exact ⟨rfl, rfl⟩
  | succ f ih =>
    constructor
    · rw [gaLoop]
      have hl : lookupT [("A", ["B"]), ("B", ["A"])] "A" = some ["B"] := by decide
      rw [hl]
      have hins : insertS "A" ["A", "B"] = ["A", "B"] := by decide
      simpa [hins] using ih.2
    · rw [gaLoop]
      have hl : lookupT [("A", ["B"]), ("B", ["A"])] "B" = some ["A"] := by decide
      rw [hl]
      have hins : insertS "B" ["A", "B"] = ["A", "B"] := by decide
      simpa [hins] using ih.1

theorem buildGa_lookup {parents : Table} {fuel : Nat} :
    ∀ {tbl t : Table}, buildGa parents fuel tbl = some t →
      ∀ {g : String} {s : List String}, lookupT t g = some s →
      ∃ ps, lookupT tbl g = some ps ∧
        gaLoop parents fuel ps.reverse [] = some (GaOut.ok s) := by
  intro tbl
  induction tbl with
  | nil =>
    intro t h g s hl
    injection h with h
    subst h
    simp [lookupT] at hl
  | cons e rest ih =>
    intro t h g s hl
    obtain ⟨g0, ps0⟩ := e
    rw [buildGa] at h
    cases hloop : gaLoop parents fuel ps0.reverse [] with
    | none => rw [hloop] at h; simp at h
    | some r =>
      rw [hloop] at h
      cases r with
      | keyErr e2 => simp at h
      | ok s0 =>
        cases hrest : buildGa parents fuel rest with
        | none => rw [hrest] at h; simp at h
        | some t2 =>
          rw [hrest] at h
          injection h with h
          subst h
          unfold lookupT at hl
          split at hl
          · rename_i heq
            subst heq
            injection hl with hl
            subst hl
            exact ⟨ps0, by simp [lookupT], hloop⟩
          · rename_i hne
            obtain ⟨ps, hps, hloop2⟩ := ih hrest hl
            exact ⟨ps, by simp only [lookupT, if_neg hne]; exact hps, hloop2⟩

theorem groupUnion_mem_of {mods : Table} :
    ∀ {gs : List String} {u : List String}, groupUnion mods gs = some u →
      ∀ {g : String}, g ∈ gs → ∀ {ms : List String}, lookupT mods g = some ms →
      ∀ {x : String}, x ∈ ms → x ∈ u := by
  intro gs
  induction gs with
  | nil => intro u h g hg; simp at hg
  | cons g0 gs2 ih =>
    intro u h g hg ms hms x hx
    rw [groupUnion] at h
    cases hl : lookupT mods g0 with
    | none => rw [hl] at h; simp at h
    | some ms0 =>
      rw [hl] at h
      cases hrest : groupUnion mods gs2 with
      | none => rw [hrest] at h; simp at h
      | some u2 =>
        rw [hrest] at h
        injection h with h
        subst h
        rcases List.mem_cons.mp hg with rfl | hg2
        · rw [hl] at hms
          injection hms with hms
          subst hms
          exact List.mem_append_left _ hx
        · exact List.mem_append_right _ (ih hrest hg2 hms hx)

theorem groupUnion_mem_rev {mods : Table} :
    ∀ {gs : List String} {u : List String}, groupUnion mods gs = some u →
      ∀ {x : String}, x ∈ u →
      ∃ g, g ∈ gs ∧ ∃ ms, lookupT mods g = some ms ∧ x ∈ ms := by
  intro gs
  induction gs with
  | nil =>
    intro u h x hx
    injection h with h
    subst h
    simp at hx
  | cons g0 gs2 ih =>
    intro u h x hx
    rw [groupUnion] at h
    cases hl : lookupT mods g0 with
    | none => rw [hl] at h; simp at h
    | some ms0 =>
      rw [hl] at h
      cases hrest : groupUnion mods gs2 with
      | none => rw [hrest] at h; simp at h
      | some u2 =>
        rw [hrest] at h
        injection h with h
        subst h
        rcases List.mem_append.mp hx with hx0 | hx2
        · exact ⟨g0, List.mem_cons_self _ _, ms0, hl, hx0⟩
        · obtain ⟨g, hg, ms, hms, hxm⟩ := ih hrest hx2
          exact ⟨g, List.mem_cons_of_mem _ hg, ms, hms, hxm⟩

theorem buildEntries_mem {adds : Table} {mdep : List String} :
    ∀ {ms : List String} {es : Table}, buildEntries adds mdep ms = some es →
      ∀ {m : String}, m ∈ ms →
      ∃ ex, lookupT adds m = some ex ∧ (m, mdep ++ ex) ∈ es := by
  intro ms
  induction ms with
  | nil => intro es h m hm; simp at hm
  | cons m0 ms2 ih =>
    intro es h m hm
    rw [buildEntries] at h
    cases hl : lookupT adds m0 with
    | none => rw [hl] at h; simp at h
    | some ex0 =>
      rw [hl] at h
      cases hrest : buildEntries adds mdep ms2 with
      | none => rw [hrest] at h; simp at h
      | some t2 =>
        rw [hrest] at h
        injection h with h
        subst h
        rcases List.mem_cons.mp hm with rfl | hm2
        · exact ⟨ex0, hl, List.mem_cons_self _ _⟩
        · obtain ⟨ex, hex, hmem⟩ := ih hrest hm2
          exact ⟨ex, hex, List.mem_cons_of_mem _ hmem⟩

theorem buildEntries_keys {adds : Table} {mdep : List String} :
    ∀ {ms : List String} {es : Table}, buildEntries adds mdep ms = some es →
      es.map Prod.fst = ms := by
  intro ms
  induction ms with
  | nil =>
    intro es h
    injection h with h
    subst h
    rfl
  | cons m0 ms2 ih =>
    intro es h
    rw [buildEntries] at h
    cases hl : lookupT adds m0 with
    | none => rw [hl] at h; simp at h
    | some ex0 =>
      rw [hl] at h
      cases hrest : buildEntries adds mdep ms2 with
      | none => rw [hrest] at h; simp at h
      | some t2 =>
        rw [hrest] at h
        injection h with h
        subst h
        simp [ih hrest]

theorem buildMa_mem {mods adds gaTbl : Table} :
    ∀ {iter t : Table}, buildMa mods adds gaTbl iter = some t →
      ∀ {g : String} {ms : List String}, (g, ms) ∈ iter →
      ∀ {m : String}, m ∈ ms →
      ∃ ga mdep ex, lookupT gaTbl g = some ga ∧ groupUnion mods ga = some mdep ∧
        lookupT adds m = some ex ∧ (m, mdep ++ ex) ∈ t := by
  intro iter
  induction iter with
  | nil => intro t h g ms hg; simp at hg
  | cons e rest ih =>
    intro t h g ms hg m hm
    obtain ⟨g0, ms0⟩ := e
    rw [buildMa] at h
    cases hga : lookupT gaTbl g0 with
    | none => rw [hga] at h; simp at h
    | some ga0 =>
      simp only [hga] at h
      cases hgu : groupUnion mods ga0 with
      | none => simp only [hgu] at h; simp at h
      | some mdep0 =>
        simp only [hgu] at h
        cases hes : buildEntries adds mdep0 ms0 with
        | none => simp only [hes] at h; simp at h
        | some es0 =>
          simp only [hes] at h
          cases hrest : buildMa mods adds gaTbl rest with
          | none => simp only [hrest] at h; simp at h
          | some t2 =>
            simp only [hrest] at h
            injection h with h
            subst h
            rcases List.mem_cons.mp hg with heq | hg2
            · injection heq with h1 h2
              subst h1
              subst h2
              obtain ⟨ex, hex, hmem⟩ := buildEntries_mem hes hm
              exact ⟨ga0, mdep0, ex, hga, hgu, hex, List.mem_append_left _ hmem⟩
            · obtain ⟨ga, mdep, ex, h1, h2, h3, h4⟩ := ih hrest hg2 hm
              exact ⟨ga, mdep, ex, h1, h2, h3, List.mem_append_right _ h4⟩

theorem buildMa_keys {mods adds gaTbl : Table} :
    ∀ {iter t : Table}, buildMa mods adds gaTbl iter = some t →
      t.map Prod.fst = allModules iter := by
  intro iter
  induction iter with
  | nil =>
    intro t h
    injection h with h
    subst h
    rfl
  | cons e rest ih =>
    intro t h
    obtain ⟨g0, ms0⟩ := e
    rw [buildMa] at h
    cases hga : lookupT gaTbl g0 with
    | none => rw [hga] at h; simp at h
    | some ga0 =>
      simp only [hga] at h
      cases hgu : groupUnion mods ga0 with
      | none => simp only [hgu] at h; simp at h
      | some mdep0 =>
        simp only [hgu] at h
        cases hes : buildEntries adds mdep0 ms0 with
        | none => simp only [hes] at h; simp at h
        | some es0 =>
          simp only [hes] at h
          cases hrest : buildMa mods adds gaTbl rest with
          | none => simp only [hrest] at h; simp at h
          | some t2 =>
            simp only [hrest] at h
            injection h with h
            subst h
            simp [allModules, buildEntries_keys hes, ih hrest]

theorem expand_layout_parts {L : Layout} {fuel : Nat} {Ma : Table}
    (h : expand_layout L fuel = some Ma) :
    ∃ gaTbl, buildGa L.parents fuel L.parents = some gaTbl ∧
      buildMa L.mods L.adds gaTbl L.mods = some Ma := by
  unfold expand_layout at h
  cases hga : buildGa L.parents fuel L.parents with
  | none => rw [hga] at h; simp at h
  | some gaTbl =>
    rw [hga] at h
    exact ⟨gaTbl, rfl, h⟩

theorem compare_none_of_missing :
    ∀ {Ma : Table} (D : Table) {m : String} {v : List String},
      (m, v) ∈ Ma → lookupT D m = none → compare_layout Ma D = none := by
  intro Ma
  induction Ma with
  | nil => intro D m v hm; simp at hm
  | cons e rest ih =>
    intro D m v hm hl
    obtain ⟨m0, al0⟩ := e
    rw [compare_layout]
    cases hl0 : lookupT D m0 with
    | none => rfl
    | some act =>
      rcases List.mem_cons.mp hm with heq | hm2
      · injection heq with h1 h2
        subst h1
        rw [hl] at hl0
        exact absurd hl0 (Option.noConfusion)
      · rw [ih D hm2 hl]

theorem outputMods_none_of_missing {ordered : List String} :
    ∀ {ms : List String} (D : Table) {m : String},
      m ∈ ms → lookupT D m = none → outputMods ordered D ms = none := by
  intro ms
  induction ms with
  | nil => intro D m hm; simp at hm
  | cons m0 ms2 ih =>
    intro D m hm hl
    rw [outputMods]
    cases hl0 : lookupT D m0 with
    | none => rfl
    | some dset =>
      rcases List.mem_cons.mp hm with rfl | hm2
      · rw [hl] at hl0
        exact absurd hl0 (Option.noConfusion)
      · rw [ih D hm2 hl]

theorem compare_isSome_of_present :
    ∀ (Ma D : Table), (∀ p ∈ Ma, (lookupT D p.1).isSome = true) →
      (compare_layout Ma D).isSome = true := by
  intro Ma
  induction Ma with
  | nil => intro D _; rfl
  | cons e rest ih =>
    intro D hall
    obtain ⟨m0, al0⟩ := e
    rw [compare_layout]
    cases hl0 : lookupT D m0 with
    | none =>
      have := hall (m0, al0) (List.mem_cons_self _ _)
      rw [hl0] at this
      simp at this
    | some act =>
      have hr := ih D (fun p hp => hall p (List.mem_cons_of_mem _ hp))
      cases hrest : compare_layout rest D with
      | none => rw [hrest] at hr; simp at hr
      | some vs => simp

theorem compare_reports_all :
    ∀ {Ma : Table} (D : Table) {vs : Table}, compare_layout Ma D = some vs →
      ∀ p ∈ Ma, ∀ act, lookupT D p.1 = some act →
        excessOf p.2 act ≠ [] → (p.1, excessOf p.2 act) ∈ vs := by
  intro Ma
  induction Ma with
  | nil => intro D vs h p hp; simp at hp
  | cons e rest ih =>
    intro D vs h p hp act hact hne
    obtain ⟨m0, al0⟩ := e
    rw [compare_layout] at h
    cases hl0 : lookupT D m0 with
    | none => rw [hl0] at h; simp at h
    | some act0 =>
      simp only [hl0] at h
      cases hrest : compare_layout rest D with
      | none => simp only [hrest] at h; simp at h
      | some vs2 =>
        simp only [hrest] at h
        injection h with h
        subst h
        rcases List.mem_cons.mp hp with rfl | hp2
        · simp only at hact
          rw [hl0] at hact
          injection hact with hact
          subst hact
          split
          · rename_i hemp
            exact absurd hemp hne
          · exact List.mem_cons_self _ _
        · have hmem := ih D hrest p hp2 act hact hne
          split
          · exact hmem
          · exact List.mem_cons_of_mem _ hmem

theorem mainRun_of_stages {L : Layout} {fuel : Nat} {lines : List String}
    {c : Nat × Nat} {Ma D o vs : Table}
    (h1 : validate_layout L = some c) (h2 : expand_layout L fuel = some Ma)
    (h3 : loadDeps lines = some D) (h4 : output_direct_deplines L D = some o)
    (h5 : compare_layout Ma D = some vs) :
    mainRun L fuel lines = some (c, o, vs) := by
  simp only [mainRun, h1, h2, h3, h4, h5]

theorem procToken_cur {st st2 : PState} {s : String}
    (h : procToken st s = some st2) : st2.cur = st.cur := by
  by_cases hskip : s = "\\" ∨ s = "esl_config.h"
  · unfold procToken at h
    rw [if_pos hskip] at h
    injection h with h
    subst h
    rfl
  · cases hcur : st.cur with
    | none =>
      unfold procToken at h
      rw [if_neg hskip] at h
      simp only [hcur] at h
      simp at h
    | some m =>
      unfold procToken at h
      rw [if_neg hskip] at h
      simp only [hcur] at h
      by_cases hself : process_token s = m
      · rw [if_pos hself] at h
        injection h with h
        subst h
        exact hcur
      · rw [if_neg hself] at h
        cases hl : lookupT st.D m with
        | none => simp only [hl] at h; simp at h
        | some dset =>
          simp only [hl] at h
          injection h with h
          subst h
          simp

theorem procToken_inv {st st2 : PState} {s : String}
    (hinv : ∀ k v, lookupT st.D k = some v → k ∉ v)
    (h : procToken st s = some st2) :
    ∀ k v, lookupT st2.D k = some v → k ∉ v := by
  by_cases hskip : s = "\\" ∨ s = "esl_config.h"
  · unfold procToken at h
    rw [if_pos hskip] at h
    injection h with h
    subst h
    exact hinv
  · cases hcur : st.cur with
    | none =>
      unfold procToken at h
      rw [if_neg hskip] at h
      simp only [hcur] at h
      simp at h
    | some m =>
      unfold procToken at h
      rw [if_neg hskip] at h
      simp only [hcur] at h
      by_cases hself : process_token s = m
      · rw [if_pos hself] at h
        injection h with h
        subst h
        exact hinv
      · rw [if_neg hself] at h
        cases hl : lookupT st.D m with
        | none => simp only [hl] at h; simp at h
        | some dset =>
          simp only [hl] at h
          injection h with h
          subst h
          intro k v hkv
          by_cases hkm : k = m
          · subst hkm
            rw [dictSet_lookup_self] at hkv
            injection hkv with hkv
            subst hkv
            intro hmem
            rcases mem_insertS.mp hmem with heq | hmemd
            · exact hself heq.symm
            · exact hinv k dset hl hmemd
          · rw [dictSet_lookup_ne hkm] at hkv
            exact hinv k v hkv

theorem procTokens_inv :
    ∀ {fields : List String} {st st2 : PState},
      (∀ k v, lookupT st.D k = some v → k ∉ v) →
      procTokens st fields = some st2 →
      ∀ k v, lookupT st2.D k = some v → k ∉ v := by
  intro fields
  induction fields with
  | nil =>
    intro st st2 hinv h
    injection h with h
    subst h
    exact hinv
  | cons s rest ih =>
    intro st st2 hinv h
    rw [procTokens] at h
    cases hs : procToken st s with
    | none => rw [hs] at h; simp at h
    | some st3 =>
      rw [hs] at h
      exact ih (procToken_inv hinv hs) h

theorem procLine_inv {st st2 : PState} {line : String}
    (hinv : ∀ k v, lookupT st.D k = some v → k ∉ v)
    (h : procLine st line = some st2) :
    ∀ k v, lookupT st2.D k = some v → k ∉ v := by
  unfold procLine at h
  cases hmt : matchTarget line with
  | none =>
    rw [hmt] at h
    exact procTokens_inv hinv h
  | some od =>
    obtain ⟨obj, deps⟩ := od
    rw [hmt] at h
    refine procTokens_inv ?_ h
    intro k v hkv
    by_cases hkm : k = process_token obj
    · subst hkm
      rw [dictSet_lookup_self] at hkv
      injection hkv with hkv
      subst hkv
      simp
    · rw [dictSet_lookup_ne hkm] at hkv
      exact hinv k v hkv

theorem procLines_inv :
    ∀ {lines : List String} {st st2 : PState},
      (∀ k v, lookupT st.D k = some v → k ∉ v) →
      procLines st lines = some st2 →
      ∀ k v, lookupT st2.D k = some v → k ∉ v := by
  intro lines
  induction lines with
  | nil =>
    intro st st2 hinv h
    injection h with h
    subst h
    exact hinv
  | cons l rest ih =>
    intro st st2 hinv h
    rw [procLines] at h
    cases hl : procLine st l with
    | none => rw [hl] at h; simp at h
    | some st3 =>
      rw [hl] at h
      exact ih (procLine_inv hinv hl) h

theorem procTokens_skip_all :
    ∀ {fields : List String} (D : Table),
      (∀ s ∈ fields, s = "\\" ∨ s = "esl_config.h") →
      procTokens ⟨none, D⟩ fields = some ⟨none, D⟩ := by
  intro fields
  induction fields with
  | nil => intro D _; rfl
  | cons s rest ih =>
    intro D hall
    rw [procTokens]
    have hs : procToken ⟨none, D⟩ s = some ⟨none, D⟩ := by
      unfold procToken
      rw [if_pos (hall s (List.mem_cons_self _ _))]
    rw [hs]
    exact ih D (fun s2 hs2 => hall s2 (List.mem_cons_of_mem _ hs2))

theorem procTokens_unbound_err :
    ∀ {fields : List String} (D : Table),
      (∃ s ∈ fields, s ≠ "\\" ∧ s ≠ "esl_config.h") →
      procTokens ⟨none, D⟩ fields = none := by
  intro fields
  induction fields with
  | nil => intro D h; simp at h
  | cons s rest ih =>
    intro D hex
    rw [procTokens]
    by_cases hs : s = "\\" ∨ s = "esl_config.h"
    · have hstep : procToken ⟨none, D⟩ s = some ⟨none, D⟩ := by
        unfold procToken
        rw [if_pos hs]
      rw [hstep]
      apply ih D
      obtain ⟨s2, hs2mem, hs2⟩ := hex
      rcases List.mem_cons.mp hs2mem with rfl | hmem2
      · rcases hs with h | h
        · exact absurd h hs2.1
        · exact absurd h hs2.2
      · exact ⟨s2, hmem2, hs2⟩
    · have hstep : procToken ⟨none, D⟩ s = none := by
        unfold procToken
        rw [if_neg hs]
      rw [hstep]

theorem procTokens_par :
    ∀ {fields : List String} {m : String} {s1 s2 : PState},
      s1.cur = some m → s2.cur = some m →
      lookupT s1.D m = lookupT s2.D m → (lookupT s1.D m).isSome = true →
      ∃ r1 r2, procTokens s1 fields = some r1 ∧ procTokens s2 fields = some r2 ∧
        r1.cur = some m ∧ r2.cur = some m ∧ lookupT r1.D m = lookupT r2.D m := by
  intro fields
  induction fields with
  | nil =>
    intro m s1 s2 hc1 hc2 heq hsome
    exact ⟨s1, s2, rfl, rfl, hc1, hc2, heq⟩
  | cons s rest ih =>
    intro m s1 s2 hc1 hc2 heq hsome
    by_cases hskip : s = "\\" ∨ s = "esl_config.h"
    · have h1 : procToken s1 s = some s1 := by unfold procToken; rw [if_pos hskip]
      have h2 : procToken s2 s = some s2 := by unfold procToken; rw [if_pos hskip]
      obtain ⟨r1, r2, hr1, hr2, hrest⟩ := ih hc1 hc2 heq hsome
      exact ⟨r1, r2, by rw [procTokens, h1]; exact hr1, by rw [procTokens, h2]; exact hr2, hrest⟩
    · by_cases hself : process_token s = m
      · have h1 : procToken s1 s = some s1 := by
          unfold procToken
          rw [if_neg hskip]
          simp only [hc1]
          rw [if_pos hself]
        have h2 : procToken s2 s = some s2 := by
          unfold procToken
          rw [if_neg hskip]
          simp only [hc2]
          rw [if_pos hself]
        obtain ⟨r1, r2, hr1, hr2, hrest⟩ := ih hc1 hc2 heq hsome
        exact ⟨r1, r2, by rw [procTokens, h1]; exact hr1, by rw [procTokens, h2]; exact hr2,
          hrest⟩
      · cases hl1 : lookupT s1.D m with
        | none => rw [hl1] at hsome; simp at hsome
        | some dset =>
          have hl2 : lookupT s2.D m = some dset := by rw [← heq, hl1]
          have h1 : procToken s1 s =
              some ⟨some m, dictSet s1.D m (insertS (process_token s) dset)⟩ := by
            unfold procToken
            rw [if_neg hskip]
            simp only [hc1]
            rw [if_neg hself]
            simp [hl1]
          have h2 : procToken s2 s =
              some ⟨some m, dictSet s2.D m (insertS (process_token s) dset)⟩ := by
            unfold procToken
            rw [if_neg hskip]
            simp only [hc2]
            rw [if_neg hself]
            simp [hl2]
          have heq2 : lookupT (dictSet s1.D m (insertS (process_token s) dset)) m =
              lookupT (dictSet s2.D m (insertS (process_token s) dset)) m := by
            rw [dictSet_lookup_self, dictSet_lookup_self]
          have hsome2 : (lookupT (dictSet s1.D m (insertS (process_token s) dset)) m).isSome
              = true := by
            rw [dictSet_lookup_self]
            rfl
          obtain ⟨r1, r2, hr1, hr2, hrest⟩ :=
            @ih m ⟨some m, dictSet s1.D m (insertS (process_token s) dset)⟩
              ⟨some m, dictSet s2.D m (insertS (process_token s) dset)⟩
              rfl rfl heq2 hsome2
          exact ⟨r1, r2, by rw [procTokens, h1]; exact hr1,
            by rw [procTokens, h2]; exact hr2, hrest⟩

/-- C1: for every layout and layers A and B with B reachable from A through
declared parent edges (chains of any length), every module b of layer B lies
in the allowed set that expand_layout computes for every module m of layer A.
The hypotheses state that the expansion ran to completion and that the
layout's membership lists are disjoint, which validate_layout guarantees. -/
theorem claim_C1_closure_correctness
    (L : Layout) (fuel : Nat) (Ma : Table)
    (hexp : expand_layout L fuel = some Ma)
    (hndm : (allModules L.mods).Nodup)
    (A B : String) (hreach : Relation.TransGen (parentEdge L.parents) A B)
    (ms : List String) (hA : lookupT L.mods A = some ms)
    (m : String) (hm : m ∈ ms)
    (bs : List String) (hB : lookupT L.mods B = some bs)
    (b : String) (hb : b ∈ bs)
    (allowed : List String) (hMa : lookupT Ma m = some allowed) :
    b ∈ allowed := by
  obtain ⟨gaTbl, hga, hma⟩ := expand_layout_parts hexp
  obtain ⟨ga, mdep, ex, hga1, hgu, hexl, hment⟩ := buildMa_mem hma (lookupT_mem hA) hm
  obtain ⟨ps, hps, hloop⟩ := buildGa_lookup hga hga1
  obtain ⟨c, hAc, hcB⟩ := Relation.TransGen.head'_iff.mp hreach
  obtain ⟨ps2, hps2, hcmem⟩ := hAc
  rw [hps] at hps2
  injection hps2 with hps2
  subst hps2
  have hBga : B ∈ ga := gaLoop_complete hloop c (List.mem_reverse.mpr hcmem) B hcB
  have hbmdep : b ∈ mdep := groupUnion_mem_of hgu hBga hB hb
  have hkeys : (Ma.map Prod.fst).Nodup := by
    rw [buildMa_keys hma]
    exact hndm
  have hal : allowed = mdep ++ ex := lookupT_val_unique hkeys (lookupT_mem hMa) hment
  rw [hal]
  exact List.mem_append_left _ hbmdep

/-- C1 witness: in the three-layer test layout the expansion completes, layer
P is reachable from layer R through the two-edge chain R to Q to P, and module
p1 of P is in the allowed set of module r1 of R. -/
theorem claim_C1_witness :
    expand_layout layoutPQR 20 =
      some [("p1", []), ("q1", ["p1", "q2"]), ("q2", ["p1"]), ("r1", ["p1", "q1", "q2"])] ∧
    "p1" ∈ ["p1", "q1", "q2"] := by
  refine ⟨by decide, ?_⟩
  have e1 : parentEdge layoutPQR.parents "R" "Q" := ⟨["Q"], by decide, by decide⟩
  have e2 : parentEdge layoutPQR.parents "Q" "P" := ⟨["P"], by decide, by decide⟩
  exact claim_C1_closure_correctness layoutPQR 20
    [("p1", []), ("q1", ["p1", "q2"]), ("q2", ["p1"]), ("r1", ["p1", "q1", "q2"])]
    (by decide) (by decide) "R" "P"
    (Relation.TransGen.head e1 (Relation.TransGen.single e2))
    ["r1"] (by decide) "r1" (by decide)
    ["p1"] (by decide) "p1" (by decide)
    ["p1", "q1", "q2"] (by decide)

/-- C2 counterexample: the claim says a module with no entry in the parsed
mapping is treated as the empty set, the comparison completes and the reporter
prints the module's line with no dependencies.  On the code, with module a
known to the layout and an empty mapping, both compare_layout and
output_direct_deplines abort with a KeyError (modelled as none) instead. -/
theorem claim_C2_counterexample :
    compare_layout [("a", [])] [] = none ∧ output_direct_deplines layoutG [] = none := by
  decide

/-- C2 amended: a module known to the Layout that has no entry in the parsed
dependency mapping makes the Layout Comparator and the Reporter raise a
KeyError (the run aborts); the absent entry is not treated as an empty set. -/
theorem claim_C2_missing_entry_fails :
    (∀ (Ma D : Table) (m : String) (v : List String),
      (m, v) ∈ Ma → lookupT D m = none → compare_layout Ma D = none) ∧
    (∀ (L : Layout) (D : Table) (ord : List String) (m : String),
      orderedMembers L.grps L.mods = some ord → m ∈ ord → lookupT D m = none →
      output_direct_deplines L D = none) := by
  constructor
  · exact fun Ma D m v hm hl => compare_none_of_missing D hm hl
  · intro L D ord m hord hm hl
    unfold output_direct_deplines
    simp only [hord]
    exact outputMods_none_of_missing D hm hl

/-- C2 witness: concrete runs of both failure modes, one module known to the
table but absent from the mapping. -/
theorem claim_C2_witness :
    compare_layout [("k", ["w"])] [("other", [])] = none ∧
    output_direct_deplines layoutG [("b", [])] = none := by
  constructor
  · exact claim_C2_missing_entry_fails.1 [("k", ["w"])] [("other", [])] "k" ["w"]
      (by decide) (by decide)
  · exact claim_C2_missing_entry_fails.2 layoutG [("b", [])] ["a"] "a"
      (by decide) (by decide) (by decide)

/-- C3: for two distinct modules X and Y assigned to the same layer g, if Y is
not in the extras set declared for X then Y is not in the allowed set that
expand_layout computes for X.  Hypotheses: the expansion completed, the
membership lists are disjoint (guaranteed by validate_layout), and the layer g
is not on a parent-edge cycle (the layout invariant that the layer graph is
acyclic). -/
theorem claim_C3_no_same_layer_leakage
    (L : Layout) (fuel : Nat) (Ma : Table)
    (hexp : expand_layout L fuel = some Ma)
    (hndm : (allModules L.mods).Nodup)
    (g : String) (ms : List String) (hgm : (g, ms) ∈ L.mods)
    (X Y : String) (hX : X ∈ ms) (hY : Y ∈ ms) (hXY : X ≠ Y)
    (hacy : ¬ Relation.TransGen (parentEdge L.parents) g g)
    (hex : ∀ ex, lookupT L.adds X = some ex → Y ∉ ex)
    (allowed : List String) (hMa : lookupT Ma X = some allowed) :
    Y ∉ allowed := by
  obtain ⟨gaTbl, hga, hma⟩ := expand_layout_parts hexp
  obtain ⟨ga, mdep, ex, hga1, hgu, hexl, hment⟩ := buildMa_mem hma hgm hX
  have hkeys : (Ma.map Prod.fst).Nodup := by
    rw [buildMa_keys hma]
    exact hndm
  have hal : allowed = mdep ++ ex := lookupT_val_unique hkeys (lookupT_mem hMa) hment
  subst hal
  intro hmem
  rcases List.mem_append.mp hmem with hmd | hmex
  · obtain ⟨g2, hg2, ms2, hlg2, hYms2⟩ := groupUnion_mem_rev hgu hmd
    have hent : (g2, ms2) ∈ L.mods := lookupT_mem hlg2
    have heq := entry_unique_of_nodup hndm hent hgm hYms2 hY
    have hg2g : g2 = g := congrArg Prod.fst heq
    subst hg2g
    obtain ⟨ps, hps, hloop⟩ := buildGa_lookup hga hga1
    rcases gaLoop_sound hloop g2 hg2 with hgin | ⟨q, hq, hpath⟩
    · simp at hgin
    · have hedge : parentEdge L.parents g2 q := ⟨ps, hps, List.mem_reverse.mp hq⟩
      exact hacy (Relation.TransGen.head' hedge hpath)
  · exact hex ex hexl hmex

/-- C3 witness: modules q2 and q1 share layer Q of the test layout, the extras
set of q2 is empty, and q1 is indeed absent from the allowed set the expansion
computes for q2. -/
theorem claim_C3_witness :
    expand_layout layoutPQR 20 =
      some [("p1", []), ("q1", ["p1", "q2"]), ("q2", ["p1"]), ("r1", ["p1", "q1", "q2"])] ∧
    "q1" ∉ ["p1"] := by
  refine ⟨by decide, ?_⟩
  have hacy : ¬ Relation.TransGen (parentEdge layoutPQR.parents) "Q" "Q" := by
    intro h
    obtain ⟨c, hQc, hcQ⟩ := Relation.TransGen.head'_iff.mp h
    obtain ⟨ps, hps, hc⟩ := hQc
    have hev : lookupT layoutPQR.parents "Q" = some ["P"] := by decide
    rw [hev] at hps
    injection hps with hps
    subst hps
    simp at hc
    subst hc
    rcases Relation.ReflTransGen.cases_head hcQ with heq | ⟨d, hPd, _⟩
    · exact absurd heq (by decide)
    · obtain ⟨ps2, hps2, hd⟩ := hPd
      have hev2 : lookupT layoutPQR.parents "P" = some [] := by decide
      rw [hev2] at hps2
      injection hps2 with hps2
      subst hps2
      simp at hd
  exact claim_C3_no_same_layer_leakage layoutPQR 20
    [("p1", []), ("q1", ["p1", "q2"]), ("q2", ["p1"]), ("r1", ["p1", "q1", "q2"])]
    (by decide) (by decide) "Q" ["q1", "q2"] (by decide) "q2" "q1"
    (by decide) (by decide) (by decide) hacy
    (fun ex hl => by
      have hev : lookupT layoutPQR.adds "q2" = some [] := by decide
      rw [hev] at hl
      injection hl with hl
      subst hl
      simp)
    ["p1"] (by decide)

/-- C4: the .o, .c and .h forms of a module filename all normalize to the bare
name, but a token that is already bare is NOT always unchanged: the regex
`.[coh]$` has an unescaped dot, so the bare name foo loses its last two
characters and becomes f.  This contradicts the stated round-trip property;
the escaped `\.[coh]$` is clearly the intent (tokens in real dependency
listings always carry an extension, so the slip is latent there). -/
theorem claim_C4_token_normalization :
    process_token "esl_foo.o" = "foo" ∧ process_token "esl_foo.c" = "foo" ∧
    process_token "esl_foo.h" = "foo" ∧
    process_token "foo" = "f" ∧ process_token "foo" ≠ "foo" := by
  decide

/-- C5 counterexample: the claim says an input whose first non-empty line is a
continuation-style line is rejected with a fatal parse error.  On the code, a
first line consisting of the shared configuration header token is
continuation-style (it does not match the target-line regex), yet the loader
skips it silently and completes with a normal mapping. -/
theorem claim_C5_counterexample :
    matchTarget "esl_config.h" = none ∧
    loadDeps ["esl_config.h", "esl_foo.o: esl_bar.h"] = some [("foo", ["bar"])] := by
  decide

/-- C5 amended: a continuation-style line processed before any target line is
fatal (an uncaught NameError on the unbound module variable) exactly when it
contains some token other than the line-continuation marker and the shared
configuration header; otherwise it is silently skipped. -/
theorem claim_C5_continuation_before_target :
    ∀ (D : Table) (l : String), matchTarget l = none →
      ((∃ s ∈ splitWs l, s ≠ "\\" ∧ s ≠ "esl_config.h") → procLine ⟨none, D⟩ l = none) ∧
      ((∀ s ∈ splitWs l, s = "\\" ∨ s = "esl_config.h") →
        procLine ⟨none, D⟩ l = some ⟨none, D⟩) := by
  intro D l hmt
  constructor
  · intro hex
    unfold procLine
    simp only [hmt]
    exact procTokens_unbound_err D hex
  · intro hall
    unfold procLine
    simp only [hmt]
    exact procTokens_skip_all D hall

/-- C5 witness: a leading continuation line with a real token aborts the run,
while one holding only the skippable tokens is passed over unchanged. -/
theorem claim_C5_witness :
    procLine ⟨none, [("w", [])]⟩ "x.h" = none ∧
    procLine ⟨none, [("w", [])]⟩ " \\ esl_config.h" = some ⟨none, [("w", [])]⟩ := by
  constructor
  · exact (claim_C5_continuation_before_target [("w", [])] "x.h" (by decide)).1 (by decide)
  · exact (claim_C5_continuation_before_target [("w", [])] " \\ esl_config.h"
      (by decide)).2 (by decide)

/-- C6 counterexample: the claim quantifies over every input, but on an input
whose mapping lacks an entry for module b the comparator aborts with a
KeyError part way (modelled as none): it does not examine every module and
the process exits nonzero. -/
theorem claim_C6_counterexample :
    compare_layout [("b", []), ("a", [])] [("a", ["x"])] = none := by
  decide

/-- C6 amended: whenever every module of the allowed table has an entry in the
parsed mapping, the comparison completes, every module whose excess is
non-empty contributes its violation to the result (no halt at the first one),
and a run in which all stages complete reaches the end of main (exit status
0) whatever the violation list contains. -/
theorem claim_C6_reports_all_violations :
    (∀ (Ma D : Table), (∀ p ∈ Ma, (lookupT D p.1).isSome = true) →
      (compare_layout Ma D).isSome = true) ∧
    (∀ (Ma D vs : Table), compare_layout Ma D = some vs →
      ∀ p ∈ Ma, ∀ act, lookupT D p.1 = some act →
        excessOf p.2 act ≠ [] → (p.1, excessOf p.2 act) ∈ vs) ∧
    (∀ (L : Layout) (fuel : Nat) (lines : List String) (c : Nat × Nat)
      (Ma D o vs : Table),
      validate_layout L = some c → expand_layout L fuel = some Ma →
      loadDeps lines = some D → output_direct_deplines L D = some o →
      compare_layout Ma D = some vs → mainRun L fuel lines = some (c, o, vs)) :=
  ⟨compare_isSome_of_present,
   fun Ma D vs h => compare_reports_all D h,
   fun L fuel lines c Ma D o vs h1 h2 h3 h4 h5 => mainRun_of_stages h1 h2 h3 h4 h5⟩

/-- C6 witness: a comparison with two modules and one excess completes and
reports the violating module, and a full run of main over the test layout
exits normally with a non-empty violation list. -/
theorem claim_C6_witness :
    (compare_layout [("p", []), ("q", ["r"])] [("p", ["v"]), ("q", [])]).isSome = true ∧
    ("p", excessOf [] ["v"]) ∈ ([("p", ["v"])] : Table) ∧
    mainRun layoutPQR 20 ["esl_p1.o: esl_r1.h", "esl_q1.o: esl_p1.h",
        "esl_q2.o: esl_config.h", "esl_r1.o: esl_q1.h"] =
      some ((3, 4), [("p1", ["r1"]), ("q1", ["p1"]), ("q2", []), ("r1", ["q1"])],
        [("p1", ["r1"])]) := by
  refine ⟨claim_C6_reports_all_violations.1 _ _ (by decide), ?_, ?_⟩
  · exact claim_C6_reports_all_violations.2.1 [("p", []), ("q", ["r"])]
      [("p", ["v"]), ("q", [])] [("p", ["v"])] (by decide) ("p", []) (by decide)
      ["v"] (by decide) (by decide)
  · exact claim_C6_reports_all_violations.2.2 layoutPQR 20
      ["esl_p1.o: esl_r1.h", "esl_q1.o: esl_p1.h", "esl_q2.o: esl_config.h",
        "esl_r1.o: esl_q1.h"] (3, 4)
      [("p1", []), ("q1", ["p1", "q2"]), ("q2", ["p1"]), ("r1", ["p1", "q1", "q2"])]
      [("p1", ["r1"]), ("q1", ["p1"]), ("q2", []), ("r1", ["q1"])]
      [("p1", ["r1"]), ("q1", ["p1"]), ("q2", []), ("r1", ["q1"])]
      [("p1", ["r1"])]
      (by decide) (by decide) (by decide) (by decide) (by decide)

/-- C7: a layout with a module assigned to two different layers, or with
differing layer-name sets across the ordering list, the membership table and
the parent table, or whose membership module set differs from the extras key
set, makes validate_layout exit with a diagnostic, and main stops there
before any closure computation. -/
theorem claim_C7_validator_rejects (L : Layout) (fuel : Nat) (lines : List String)
    (hbad :
      (∃ e1 ∈ L.mods, ∃ e2 ∈ L.mods, e1.1 ≠ e2.1 ∧ ∃ m ∈ e1.2, m ∈ e2.2) ∨
      ¬ (eqAsSets L.grps (L.mods.map Prod.fst) ∧
         eqAsSets L.grps (L.parents.map Prod.fst)) ∨
      ¬ eqAsSets (allModules L.mods) (L.adds.map Prod.fst)) :
    validate_layout L = none ∧ mainRun L fuel lines = none := by
  have hval : validate_layout L = none := by
    unfold validate_layout
    by_cases h1 : eqAsSets L.grps (L.mods.map Prod.fst)
    · rw [if_neg (not_not_intro h1)]
      by_cases h2 : eqAsSets L.grps (L.parents.map Prod.fst)
      · rw [if_neg (not_not_intro h2)]
        rcases hbad with hdup | hsets | hadds
        · have hnodup : ¬ (allModules L.mods).Nodup := by
            obtain ⟨e1, he1, e2, he2, hne, m, hm1, hm2⟩ := hdup
            intro hnd
            exact hne (congrArg Prod.fst (entry_unique_of_nodup hnd he1 he2 hm1 hm2))
          have hlen : (allModules L.mods).dedup.length ≠ (allModules L.mods).length := by
            intro hlen
            apply hnodup
            have heq := (List.dedup_sublist (allModules L.mods)).eq_of_length hlen
            rw [← heq]
            exact List.nodup_dedup (allModules L.mods)
          rw [if_pos hlen]
        · exact absurd ⟨h1, h2⟩ hsets
        · by_cases h3 : (allModules L.mods).dedup.length = (allModules L.mods).length
          · rw [if_neg (not_not_intro h3)]
            rw [if_pos hadds]
          · rw [if_pos h3]
      · rw [if_pos h2]
    · rw [if_pos h1]
  exact ⟨hval, by simp only [mainRun, hval]⟩

/-- C7 witness: the layout with module m listed in layers G and H is rejected
by the validator and by main. -/
theorem claim_C7_witness :
    validate_layout layoutDup = none ∧ mainRun layoutDup 5 [] = none :=
  claim_C7_validator_rejects layoutDup 5 [] (Or.inl (by decide))

/-- C8: for every parent table whose edge relation has no cycle the worklist
loop of expand_layout stops within some finite number of iterations from any
starting pushdown (stopping normally or by raising KeyError); and the loop
has no cycle guard: on the two-layer cyclic table it runs forever, returning
none for every iteration bound. -/
theorem claim_C8_worklist_termination :
    (∀ (parents : Table),
      (∀ g, ¬ Relation.TransGen (parentEdge parents) g g) →
      ∀ pda ga, ∃ fuel r, gaLoop parents fuel pda ga = some r) ∧
    (∀ fuel, gaLoop [("A", ["B"]), ("B", ["A"])] fuel ["B"] [] = none) := by
  constructor
  · exact fun parents hacy => gaLoop_term_of_acyclic parents hacy
  · intro fuel
    match fuel with
    | 0 => rfl
    | 1 =>
      rw [gaLoop]
      have hl : lookupT [("A", ["B"]), ("B", ["A"])] "B" = some ["A"] := by decide
      simp only [hl]
      rfl
    | (f + 2) =>
      rw [gaLoop]
      have hl : lookupT [("A", ["B"]), ("B", ["A"])] "B" = some ["A"] := by decide
      simp only [hl]
      show gaLoop [("A", ["B"]), ("B", ["A"])] (f + 1) ["A"] ["B"] = none
      rw [gaLoop]
      have hlA : lookupT [("A", ["B"]), ("B", ["A"])] "A" = some ["B"] := by decide
      simp only [hlA]
      show gaLoop [("A", ["B"]), ("B", ["A"])] f ["B"] ["A", "B"] = none
      exact (cyc_loop_none f).2

/-- C8 witness: on a concrete acyclic two-layer parent table the traversal
terminates from the pushdown holding layer A. -/
theorem claim_C8_witness :
    ∃ fuel r, gaLoop [("A", ["B"]), ("B", [])] fuel ["A"] [] = some r := by
  apply claim_C8_worklist_termination.1
  · intro g hcyc
    obtain ⟨c, hgc, hcg⟩ := Relation.TransGen.head'_iff.mp hcyc
    obtain ⟨ps, hps, hcps⟩ := hgc
    by_cases hA : g = "A"
    · subst hA
      have hev : lookupT [("A", ["B"]), ("B", [])] "A" = some ["B"] := by decide
      rw [hev] at hps
      injection hps with hps
      subst hps
      simp at hcps
      subst hcps
      rcases Relation.ReflTransGen.cases_head hcg with heq | ⟨d, hBd, _⟩
      · exact absurd heq (by decide)
      · obtain ⟨ps2, hps2, hd⟩ := hBd
        have hev2 : lookupT [("A", ["B"]), ("B", [])] "B" = some [] := by decide
        rw [hev2] at hps2
        injection hps2 with hps2
        subst hps2
        simp at hd
    · by_cases hB : g = "B"
      · subst hB
        have hev2 : lookupT [("A", ["B"]), ("B", [])] "B" = some [] := by decide
        rw [hev2] at hps
        injection hps with hps
        subst hps
        simp at hcps
      · have h1 : ("A" : String) ≠ g := fun h => hA h.symm
        have h2 : ("B" : String) ≠ g := fun h => hB h.symm
        simp [lookupT, h1, h2] at hps

/-- C9: a token whose normalized form equals the current module's own
normalized name is discarded by the loader: whenever parsing completes, no
module's actual set contains the module's own name. -/
theorem claim_C9_self_dependency_excluded :
    ∀ (lines : List String) (D : Table), loadDeps lines = some D →
      ∀ m v, lookupT D m = some v → m ∉ v := by
  intro lines D h m v hl
  unfold loadDeps at h
  cases hst : procLines ⟨none, []⟩ lines with
  | none => rw [hst] at h; simp at h
  | some stf =>
    rw [hst] at h
    injection h with h
    subst h
    have hinv := @procLines_inv lines ⟨none, []⟩ stf
      (fun k v2 hk => by simp [lookupT] at hk) hst
    exact hinv m v hl

/-- C9 witness: a line carrying the module's own .c and .h files parses
without error and yields an actual set without the module itself. -/
theorem claim_C9_witness :
    loadDeps ["esl_foo.o: esl_foo.c esl_foo.h easel.h"] = some [("foo", ["easel"])] ∧
    "foo" ∉ ["easel"] := by
  refine ⟨by decide, ?_⟩
  exact claim_C9_self_dependency_excluded ["esl_foo.o: esl_foo.c esl_foo.h easel.h"]
    [("foo", ["easel"])] (by decide) "foo" ["easel"] (by decide)

/-- C10: when a target line for an already-seen module is processed, the
module's set is reset to empty first, so the resulting entry is exactly what
processing the line from a fresh empty state yields: everything parsed for
that module from earlier lines is discarded, not merged. -/
theorem claim_C10_duplicate_target_resets :
    ∀ (st : PState) (l obj deps : String) (st2 : PState),
      matchTarget l = some (obj, deps) → procLine st l = some st2 →
      ∃ stf, procLine ⟨none, []⟩ l = some stf ∧
        lookupT st2.D (process_token obj) = lookupT stf.D (process_token obj) := by
  intro st l obj deps st2 hmt h
  unfold procLine at h
  simp only [hmt] at h
  obtain ⟨r1, r2, hr1, hr2, hc1, hc2, heq⟩ :=
    @procTokens_par (splitWs deps) (process_token obj)
      ⟨some (process_token obj), dictSet st.D (process_token obj) []⟩
      ⟨some (process_token obj), dictSet [] (process_token obj) []⟩
      rfl rfl
      (by rw [dictSet_lookup_self, dictSet_lookup_self])
      (by rw [dictSet_lookup_self]; rfl)
  rw [hr1] at h
  injection h with h
  subst h
  refine ⟨r2, ?_, heq⟩
  unfold procLine
  simp only [hmt]
  exact hr2

/-- C10 witness: reprocessing a target line for module foo from a state where
foo already holds the dependency a leaves exactly the fresh-state result: the
old dependency is gone and only b remains. -/
theorem claim_C10_witness :
    matchTarget "esl_foo.o: esl_b.h" = some ("esl_foo.o", "esl_b.h") ∧
    procLine ⟨none, [("foo", ["a"])]⟩ "esl_foo.o: esl_b.h" =
      some ⟨some "foo", [("foo", ["b"])]⟩ ∧
    (∃ stf, procLine ⟨none, []⟩ "esl_foo.o: esl_b.h" = some stf ∧
      lookupT [("foo", ["b"])] (process_token "esl_foo.o") =
        lookupT stf.D (process_token "esl_foo.o")) := by
  refine ⟨by decide, by decide, ?_⟩
  exact claim_C10_duplicate_target_resets ⟨none, [("foo", ["a"])]⟩ "esl_foo.o: esl_b.h"
    "esl_foo.o" "esl_b.h" ⟨some "foo", [("foo", ["b"])]⟩ (by decide) (by decide)

end Techtree
